import Mathlib

/-!
Verification of `aesara/graph/opt_utils.py`.

The graph data model follows the spec's systems-language rendering: Nodes
(`Apply`) and Values are arena-allocated and addressed by stable natural-number
indices; "same object" (Python `is`) is modelled as "same index".  A heap
(`Env`) is the list of all allocated `Apply` nodes; a Value is a bare index, a
leaf being an index that no `Apply` lists among its outputs.
-/

set_option autoImplicit false
set_option linter.unnecessarySeqFocus false

namespace Aesara

/-- An operation application node (`aesara.graph.basic.Apply`): an operation
instance holding an ordered sequence of input Values and an ordered sequence of
output Values it owns.  `aid` is the node's arena index (reference identity). -/
structure Apply where
  aid : Nat
  op : Nat
  inputs : List Nat
  outputs : List Nat
deriving DecidableEq, Repr

/-- A heap of allocated nodes: the object store in which Values live. -/
abbrev Env := List Apply

/-- The owner of a Value: the first allocated node listing it among its
outputs (`Variable.owner`); `none` for a leaf. -/
def ownerIn (env : Env) (v : Nat) : Option Apply :=
  env.find? (fun a => a.outputs.contains v)

/-- Reference identity of an optional owner: owners are the same node iff they
have the same arena index. -/
def ownerRef (o : Option Apply) : Option Nat :=
  o.map (fun a => a.aid)

/-- All Values backward-reachable from `v` through owner edges
(`aesara.graph.basic.vars_between` from the graph inputs to `[v]`), with fuel
bounding the walk depth. -/
def varsFrom (env : Env) : Nat → Nat → List Nat
  | 0, v => [v]
  | fuel + 1, v =>
    v :: (match ownerIn env v with
          | none => []
          | some a => (a.inputs.map (varsFrom env fuel)).flatten)

/-- All nodes backward-reachable from `v` through owner edges, with fuel. -/
def reachApplies (env : Env) : Nat → Nat → List Apply
  | 0, _ => []
  | fuel + 1, v =>
    match ownerIn env v with
    | none => []
    | some a => a :: (a.inputs.map (reachApplies env fuel)).flatten

/-- A `FunctionGraph`: the tracked applies between the designated inputs and
outputs, plus the two designated Value lists. -/
structure Graph where
  applies : List Apply
  inputs : List Nat
  outputs : List Nat
deriving DecidableEq, Repr

/-- Modelled from the spec: `FunctionGraph(inputs, outputs, clone=False)`
construction over an object store — the tracked applies are those
backward-reachable from the outputs, the inputs are the reachable leaves, and
no re-cloning happens. -/
def mkFGraph (store : Env) (outs : List Nat) : Graph :=
  { applies := ((outs.map (reachApplies store (store.length + 1))).flatten).dedup
    inputs :=
      (((outs.map (varsFrom store (store.length + 1))).flatten).filter
        (fun v => (ownerIn store v).isNone)).dedup
    outputs := outs }

/-- Every Value tracked by a graph (its inputs, outputs and the inputs and
outputs of its applies). -/
def gVars (g : Graph) : List Nat :=
  g.inputs ++ g.outputs ++ (g.applies.map (fun a => a.inputs ++ a.outputs)).flatten

/-- Rewire one node: every input edge pointing at `old` now points at `new`. -/
def substApply (old new : Nat) (a : Apply) : Apply :=
  { a with inputs := a.inputs.map (fun i => if i = old then new else i) }

/-- Modelled from the spec: `FunctionGraph.replace(old, new)` — rewires every
consumer edge (and designated-output slot) pointing at `old` to `new`, importing
the replacement's ancestor nodes from the store; fails (`none`) if `old` is not
part of the graph's tracked value set. -/
def replaceG (store : Env) (g : Graph) (old new : Nat) : Option Graph :=
  if (gVars g).contains old then
    some
      { applies :=
          (g.applies.map (substApply old new)) ++
            ((reachApplies store (store.length + 1) new).dedup.filter
              (fun a => !(g.applies.map (fun b => b.aid)).contains a.aid))
        inputs := g.inputs
        outputs := g.outputs.map (fun v => if v = old then new else v) }
  else
    none

/-- First pair of distinct tracked nodes performing the same computation:
same operation applied to the same input Values. -/
def findMergePair : List Apply → Option (Apply × Apply)
  | [] => none
  | a :: rest =>
    match rest.find? (fun b => b.op = a.op && b.inputs = a.inputs && b.aid ≠ a.aid) with
    | some b => some (a, b)
    | none => findMergePair rest

/-- Unify node `b` into node `a`: every consumer of one of `b`'s outputs is
rewired to the corresponding output of `a`, and `b` is dropped. -/
def applyMerge (g : Graph) (a b : Apply) : Graph :=
  let pairs := b.outputs.zip a.outputs
  let subst := fun v => match pairs.lookup v with
                        | some w => w
                        | none => v
  { applies :=
      (g.applies.filter (fun c => c.aid ≠ b.aid)).map
        (fun c => { c with inputs := c.inputs.map subst })
    inputs := g.inputs
    outputs := g.outputs.map subst }

/-- Iterate merge steps until no two distinct nodes perform the same
computation, with fuel. -/
def mergeAll : Nat → Graph → Graph
  | 0, g => g
  | fuel + 1, g =>
    match findMergePair g.applies with
    | none => g
    | some (a, b) => mergeAll fuel (applyMerge g a b)

/-- Modelled from the spec: the external Merge pass
(`aesara.graph.opt.MergeOptimizer.optimize`) — after running, any two Values
proven to compute identical results have reference-identical owning nodes;
leaves are never rewritten. -/
def mergeOptimize (g : Graph) : Graph :=
  mergeAll g.applies.length g

/-- All arena indices mentioned by a node. -/
def applyIds (a : Apply) : List Nat :=
  a.aid :: (a.inputs ++ a.outputs)

/-- Largest index of a list, `0` for the empty list. -/
def maxList (l : List Nat) : Nat :=
  l.foldr max 0

/-- A strict upper bound on every index alive before an equivalence check:
the copies allocated by `copy.deepcopy` start at this index. -/
def freshBase (env : Env) (var1 var2 : Nat) (givens : List (Nat × Nat)) : Nat :=
  maxList ((env.map applyIds).flatten ++ [var1, var2] ++
    (givens.map (fun p => max p.1 p.2))) + 1

/-- Modelled from the spec: the deep-copy primitive applied to one node —
a single combined copy pass renaming every index by the fresh offset `b`, so
internal aliasing is preserved and nothing in the copy is reference-equal to
anything in the source. -/
def renApply (b : Nat) (a : Apply) : Apply :=
  { aid := a.aid + b, op := a.op
    inputs := a.inputs.map (fun i => i + b)
    outputs := a.outputs.map (fun o => o + b) }

/-- The merge-based checker's graph pipeline (`is_same_graph_with_merge`,
lines 67-90 of `opt_utils.py`): deep-copy `(var1, var2, givens)` as one unit,
build the ephemeral `FunctionGraph` over the copied outputs, apply every
substitution via `replace` (failing if a key is not tracked), run the merge
pass, and remap the two outputs through the copied substitution mapping once
more.  Returns the final graph and the two remapped output Values. -/
def mergePipeline (env : Env) (var1 var2 : Nat) (givens : List (Nat × Nat)) :
    Option (Graph × Nat × Nat) :=
  let b := freshBase env var1 var2 givens
  let store := env.map (renApply b)
  let v1 := var1 + b
  let v2 := var2 + b
  let givens2 := givens.map (fun p => (p.1 + b, p.2 + b))
  let g0 := mkFGraph store [v1, v2]
  (givens2.foldl (fun og p => og.bind (fun g => replaceG store g p.1 p.2)) (some g0)).map
    (fun g =>
      let g2 := mergeOptimize g
      let outs := g2.outputs.map (fun v => (givens2.lookup v).getD v)
      (g2, outs.getD 0 0, outs.getD 1 0))

/-- The final comparison of `is_same_graph_with_merge` (lines 90-96): two
single-Variable graphs are equal iff they are the same Variable; otherwise the
owners must be the same node (reference identity). -/
def decideSame (g : Graph) (w1 w2 : Nat) : Bool :=
  match ownerIn g.applies w1, ownerIn g.applies w2 with
  | none, none => w1 = w2
  | o1, o2 => ownerRef o1 = ownerRef o2

/-- `is_same_graph_with_merge(var1, var2, givens)`: the merge-based
implementation of `is_same_graph`.  The result is `none` when a substitution
key is not tracked by the ephemeral graph (the `replace` call raises); the
second component is the heap after the call — the caller's nodes followed by
the mutated private copies. -/
def is_same_graph_with_merge (env : Env) (var1 var2 : Nat)
    (givens : List (Nat × Nat)) : Option Bool × Env :=
  match mergePipeline env var1 var2 givens with
  | none => (none, env)
  | some (g, w1, w2) => (some (decideSame g w1 w2), env ++ g.applies)

/-- Structural comparison of two Values, assuming the aligned `inXs`/`inYs`
pairs equal, with fuel. -/
def eqCompVar (env : Env) (inXs inYs : List Nat) : Nat → Nat → Nat → Bool
  | 0, _, _ => false
  | fuel + 1, x, y =>
    if x = y then true
    else if (inXs.zip inYs).contains (x, y) then true
    else
      match ownerIn env x, ownerIn env y with
      | some a, some c =>
        a.op = c.op && a.inputs.length = c.inputs.length &&
          a.outputs.indexOf x = c.outputs.indexOf y &&
          (a.inputs.zip c.inputs).all (fun p => eqCompVar env inXs inYs fuel p.1 p.2)
      | _, _ => false

/-- Modelled from the spec: the external structural comparator
(`aesara.graph.basic.equal_computations`) — compares two lists of output Values
for structural (not merge-based) equality, treating each `inXs[i]`/`inYs[i]`
pair as a free axiom of equality during the comparison. -/
def equal_computations (env : Env) (xs ys : List Nat)
    (inXs inYs : Option (List Nat)) : Bool :=
  xs.length = ys.length &&
    (xs.zip ys).all
      (fun p => eqCompVar env (inXs.getD []) (inYs.getD []) (env.length + 1) p.1 p.2)

/-- The cleanly-separable loop of `is_same_graph` (lines 170-196): each
`(to_replace, replace_by)` pair must have exactly one member exclusively in
`var1`'s reachable-Value set and the other exclusively in `var2`'s; the pairs
are partitioned into the aligned `in_xs`/`in_ys` lists, and any failing pair
aborts the whole loop (`none`). -/
def sepLoop (in1 in2 : Nat → Bool) : List (Nat × Nat) → Option (List Nat × List Nat)
  | [] => some ([], [])
  | (t, r) :: rest =>
    if in1 t && !in2 t && in2 r && !in1 r then
      (sepLoop in1 in2 rest).map (fun p => (t :: p.1, r :: p.2))
    else if in2 t && !in1 t && in1 r && !in2 r then
      (sepLoop in1 in2 rest).map (fun p => (r :: p.1, t :: p.2))
    else
      none

/-- The separability test over the two computational graphs of `var1` and
`var2` (membership by backward reachability from each output). -/
def sepFn (env : Env) (var1 var2 : Nat) (givens : List (Nat × Nat)) :
    Option (List Nat × List Nat) :=
  sepLoop (fun x => (varsFrom env (env.length + 1) var1).contains x)
    (fun x => (varsFrom env (env.length + 1) var2).contains x) givens

/-- Whether and with which `in_xs`/`in_ys` arguments `is_same_graph` invokes
the structural comparator: with empty `givens` it is invoked with absent
lists; with non-empty `givens` it is invoked with the aligned separable lists,
or not at all (`none`) when some pair fails the separability test. -/
def structuralArgs (env : Env) (var1 var2 : Nat) (givens : List (Nat × Nat)) :
    Option (Option (List Nat) × Option (List Nat)) :=
  if givens.isEmpty then some (none, none)
  else (sepFn env var1 var2 givens).map (fun p => (some p.1, some p.2))

/-- The type of the structural comparator taken as a parameter: heap, the two
output lists, and the optional aligned assumed-equal lists. -/
abbrev Comparator :=
  Env → List Nat → List Nat → Option (List Nat) → Option (List Nat) → Bool

/-- `is_same_graph(var1, var2, givens)` with the structural comparator as an
explicit parameter: always computes the merge-based result first, then, when
the substitution structure permits, cross-validates against the comparator and
asserts agreement.  `none` models an uncaught exception (failed `replace` or
failed assertion). -/
def is_same_graph_gen (ec : Comparator) (env : Env) (var1 var2 : Nat)
    (givens : List (Nat × Nat)) : Option Bool × Env :=
  let m := is_same_graph_with_merge env var1 var2 givens
  match m.1 with
  | none => (none, m.2)
  | some rval1 =>
    match structuralArgs env var1 var2 givens with
    | none => (some rval1, m.2)
    | some (xs, ys) =>
      if ec env [var1] [var2] xs ys = rval1 then (some rval1, m.2)
      else (none, m.2)

/-- `is_same_graph(var1, var2, givens)` (lines 99-206 of `opt_utils.py`). -/
def is_same_graph (env : Env) (var1 var2 : Nat) (givens : List (Nat × Nat)) :
    Option Bool × Env :=
  is_same_graph_gen equal_computations env var1 var2 givens

/-- The client edges recorded against a Value in a heap: every
(consuming node index, input position) pair. -/
def clientsIn (env : Env) (v : Nat) : List (Nat × Nat) :=
  (env.map (fun a =>
    ((a.inputs.enum.filter (fun p => p.2 = v)).map (fun p => (a.aid, p.1))))).flatten

/-- A consumer recorded in a graph's client index: either a consuming node or
the designated-graph-output sentinel (`"output"`). -/
inductive Client where
  | app (a : Apply)
  | output
deriving DecidableEq, Repr

/-- Modelled from the spec: the derived client index `FunctionGraph.clients` —
for every Value, the (consuming node, input position) pairs referencing it,
with a sentinel consumer marking designated graph outputs. -/
def clientsOf (g : Graph) (v : Nat) : List (Client × Nat) :=
  (g.applies.map (fun a =>
    ((a.inputs.enum.filter (fun p => p.2 = v)).map (fun p => (Client.app a, p.1))))).flatten
    ++ (g.outputs.enum.filter (fun p => p.2 = v)).map (fun p => (Client.output, p.1))

/-- The recursion of `get_clients_at_depth` on the truncated depth: at zero,
yield each output Value's owner; above zero, recurse through every client
that is not the graph-output sentinel. -/
def gcadNat (g : Graph) : Nat → Apply → List (Option Apply)
  | 0, node => node.outputs.map (fun v => ownerIn g.applies v)
  | d + 1, node =>
    (node.outputs.map (fun v =>
      ((clientsOf g v).map (fun c =>
        match c.1 with
        | Client.app a => gcadNat g d a
        | Client.output => [])).flatten)).flatten

/-- `get_clients_at_depth(fgraph, node, depth)` (lines 209-220 of
`opt_utils.py`): the list of yielded nodes, in yield order.  The `depth > 0`
test sends every depth `≤ 0` (negative included) to the zero-depth base case,
which `Int.toNat` mirrors. -/
def get_clients_at_depth (g : Graph) (node : Apply) (depth : Int) :
    List (Option Apply) :=
  gcadNat g depth.toNat node

/-- Modelled from the spec: `FunctionGraph(outputs=[v], clone=clone)` — wrap a
bare Value as a single-output ephemeral graph, cloning it first when `clone`
is set. -/
def wrapVariable (env : Env) (v : Nat) (clone : Bool) : Graph :=
  if clone then
    let b := freshBase env v v []
    mkFGraph (env.map (renApply b)) [v + b]
  else
    mkFGraph env [v]

/-- Run the optional custom pass after the composed pass. -/
def runCustom (customOpt : Option (Graph → Graph)) (g : Graph) : Graph :=
  match customOpt with
  | some f => f g
  | none => g

/-- `optimize_graph(fgraph, include, custom_opt, clone)` (lines 16-55 of
`opt_utils.py`).  The composed pass obtained from the external registry query
and the optional custom pass are modelled from the spec as in-place graph
transformations taken as parameters.  A bare Value is wrapped (cloning per the
flag) and its single optimized output returned (`none` if the passes emptied
the outputs, where Python would raise an `IndexError`); a `FunctionGraph` is
optimized directly. -/
def optimize_graph (env : Env) (opt : Graph → Graph)
    (customOpt : Option (Graph → Graph)) (target : Sum Nat Graph)
    (clone : Bool) : Option (Sum Nat Graph) :=
  match target with
  | Sum.inl v =>
    let fg := wrapVariable env v clone
    ((runCustom customOpt (opt fg)).outputs.head?).map Sum.inl
  | Sum.inr fg =>
    some (Sum.inr (runCustom customOpt (opt fg)))

/-- A linear-chain node: node `i` consumes Value `i` and owns Value `i + 1`. -/
def chainApply (i : Nat) : Apply :=
  { aid := i, op := 0, inputs := [i], outputs := [i + 1] }

/-- The heap of a linear chain of `n` single-input/single-output nodes. -/
def chainEnv (n : Nat) : Env :=
  (List.range n).map chainApply

/-- The linear chain as a graph: input Value `0`, designated output Value `n`. -/
def chainGraph (n : Nat) : Graph :=
  { applies := chainEnv n, inputs := [0], outputs := [n] }

/-- The heap for the substitution example: leaves `x = 0`, `y = 1` and the
shared constant-one leaf `2`; node `0` computes `x + 1` owning Value `3`,
node `1` computes `y + 1` owning Value `4`. -/
def addOneEnv : Env :=
  [⟨0, 0, [0, 2], [3]⟩, ⟨1, 0, [1, 2], [4]⟩]

/-- A heap exercising the merge checker's decision on a derived output: one
node of operation `3` consuming leaf `0` and owning Value `1`. -/
def singleNodeEnv : Env :=
  [⟨0, 3, [0], [1]⟩]

/-- A heap on which the merge-based and structural algorithms disagree: two
nodes of the same operation `7`, node `0` consuming leaf `0` with outputs
`[2, 3]` and node `1` consuming leaf `1` with outputs `[4, 5]`.  Comparing
output `2` (position 0) against output `5` (position 1) under `{0 : 1}`, the
merge pass unifies the two nodes (same owner: `True`) while the structural
comparator rejects the differing output positions (`False`). -/
def twinOutputEnv : Env :=
  [⟨0, 7, [0], [2, 3]⟩, ⟨1, 7, [1], [4, 5]⟩]

/-!  ## Theorems -/

/-- Claim C10: when `optimize_graph` is given a value that is already a
`FunctionGraph`, it returns that very graph as transformed in place by the
composed pass and the optional custom pass, and the `clone` flag has no
effect; cloning can occur only on the path wrapping a bare Variable into a
fresh single-output `FunctionGraph`, whose single output is returned. -/
theorem optimize_graph_inplace (env : Env) (opt : Graph → Graph)
    (customOpt : Option (Graph → Graph)) (fg : Graph) (c c' : Bool) :
    optimize_graph env opt customOpt (Sum.inr fg) c =
        some (Sum.inr (runCustom customOpt (opt fg))) ∧
      optimize_graph env opt customOpt (Sum.inr fg) c =
        optimize_graph env opt customOpt (Sum.inr fg) c' ∧
      ∀ v : Nat,
        optimize_graph env opt customOpt (Sum.inl v) c =
          ((runCustom customOpt (opt (wrapVariable env v c))).outputs.head?).map
            Sum.inl :=
  ⟨rfl, rfl, fun _ => rfl⟩

/-- Claim C9: for every node and every depth less than or equal to zero
(negative depths included), `get_clients_at_depth` yields the owner of each
output Value — once per output — exactly as it does at depth zero, traversing
no consumer edge and raising no error. -/
theorem get_clients_at_depth_nonpos (g : Graph) (node : Apply) (d : Int)
    (h : d ≤ 0) :
    get_clients_at_depth g node d =
        node.outputs.map (fun v => ownerIn g.applies v) ∧
      get_clients_at_depth g node d = get_clients_at_depth g node 0 := by
  unfold get_clients_at_depth
  rw [Int.toNat_of_nonpos h]
  exact ⟨rfl, rfl⟩

/-- Witness for C9 at the one-node chain and depth `-2`. -/
theorem get_clients_at_depth_nonpos_witness :
    get_clients_at_depth (chainGraph 1) (chainApply 0) (-2) =
        (chainApply 0).outputs.map (fun v => ownerIn (chainGraph 1).applies v) ∧
      get_clients_at_depth (chainGraph 1) (chainApply 0) (-2) =
        get_clients_at_depth (chainGraph 1) (chainApply 0) 0 :=
  get_clients_at_depth_nonpos (chainGraph 1) (chainApply 0) (-2) (by decide)

/-- Counterexample to claim C8 as stated: a negative depth is not rejected —
at depth `-1` on a chain the call succeeds and yields a node. -/
theorem negative_depth_not_rejected_counterexample :
    get_clients_at_depth (chainGraph 2) (chainApply 0) (-1) =
        [some (chainApply 0)] ∧
      get_clients_at_depth (chainGraph 2) (chainApply 0) (-1) ≠ [] := by
  decide

/-- Claim C8 (amended): `get_clients_at_depth` does not reject a negative
depth; the `depth > 0` guard sends every negative depth to the zero-depth
base case, so the call behaves exactly as at depth zero and raises no
error. -/
theorem negative_depth_behaves_as_zero (g : Graph) (node : Apply) (d : Int)
    (h : d < 0) :
    get_clients_at_depth g node d = get_clients_at_depth g node 0 := by
  unfold get_clients_at_depth
  rw [Int.toNat_of_nonpos (le_of_lt h)]
  rfl

/-- Witness for the amended C8 at the two-node chain and depth `-3`. -/
theorem negative_depth_behaves_as_zero_witness :
    get_clients_at_depth (chainGraph 2) (chainApply 1) (-3) =
      get_clients_at_depth (chainGraph 2) (chainApply 1) 0 :=
  negative_depth_behaves_as_zero (chainGraph 2) (chainApply 1) (-3) (by decide)

/-- Claim C5: for the distinct leaves `x = 0` and `y = 1`, comparing the
graphs `x + 1` (output `3`) and `y + 1` (output `4`) returns `True` under the
substitution mapping `{x : y}` and `False` under the empty mapping. -/
theorem is_same_graph_substitution :
    (is_same_graph addOneEnv 3 4 [(0, 1)]).1 = some true ∧
      (is_same_graph addOneEnv 3 4 []).1 = some false := by
  decide

/-- Claim C1: `is_same_graph` always computes the merge-based result; when the
structural comparator is invoked its result is asserted equal to the
merge-based one, a mismatch aborting the call with no value (`none`); every
branch that does return a value returns the merge-based result. -/
theorem is_same_graph_asserts_agreement (env : Env) (var1 var2 : Nat)
    (givens : List (Nat × Nat)) :
    (is_same_graph env var1 var2 givens).1 =
      match (is_same_graph_with_merge env var1 var2 givens).1,
          structuralArgs env var1 var2 givens with
      | none, _ => none
      | some rval1, none => some rval1
      | some rval1, some (xs, ys) =>
        if equal_computations env [var1] [var2] xs ys = rval1 then some rval1
        else none := by
  unfold is_same_graph is_same_graph_gen
  rcases h1 : (is_same_graph_with_merge env var1 var2 givens).1 with _ | rval1 <;>
    rcases h2 : structuralArgs env var1 var2 givens with _ | ⟨xs, ys⟩ <;>
      simp [h1, h2] <;> split <;> rfl

/-- Claim C6: with a non-empty substitution mapping, cross-validation is
all-or-nothing — when some pair fails the cleanly-separable test (`sepFn`
returns `none`) the result is the merge-based checker's alone, for any
comparator whatsoever; when every pair passes, the comparator is invoked with
the aligned `in_xs`/`in_ys` lists and asserted against the merge result. -/
theorem cross_validation_all_or_nothing (ec : Comparator) (env : Env)
    (var1 var2 : Nat) (givens : List (Nat × Nat)) (h : givens ≠ []) :
    is_same_graph_gen ec env var1 var2 givens =
      match is_same_graph_with_merge env var1 var2 givens,
          sepFn env var1 var2 givens with
      | (none, e), _ => (none, e)
      | (some rval1, e), none => (some rval1, e)
      | (some rval1, e), some (xs, ys) =>
        (if ec env [var1] [var2] (some xs) (some ys) = rval1 then some rval1
         else none, e) := by
  have hne : givens.isEmpty = false := by
    cases givens with
    | nil => exact absurd rfl h
    | cons a l => rfl
  unfold is_same_graph_gen structuralArgs
  rw [hne]
  rcases hm : is_same_graph_with_merge env var1 var2 givens with ⟨_ | rval1, e⟩ <;>
    rcases hs : sepFn env var1 var2 givens with _ | ⟨xs, ys⟩ <;>
      simp [hm, hs] <;> split <;> rfl

/-- Witness for C6: a non-empty, cleanly separable mapping over the empty
heap, where both algorithms agree on `True`. -/
theorem cross_validation_all_or_nothing_witness :
    is_same_graph_gen equal_computations [] 0 1 [(0, 1)] =
      match is_same_graph_with_merge [] 0 1 [(0, 1)], sepFn [] 0 1 [(0, 1)] with
      | (none, e), _ => (none, e)
      | (some rval1, e), none => (some rval1, e)
      | (some rval1, e), some (xs, ys) =>
        (if equal_computations [] [0] [1] (some xs) (some ys) = rval1 then
           some rval1
         else none, e) :=
  cross_validation_all_or_nothing equal_computations [] 0 1 [(0, 1)] (by decide)

/-- Claim C4: whenever the merge-based checker's pipeline completes, its
result interprets the merged graph as follows — after remapping the two
copied outputs through the substitution mapping, if both are leaves the
result is `True` iff they are the same Value reference, and otherwise the
result is `True` iff their owning nodes are the same node reference. -/
theorem merge_checker_decision (env : Env) (var1 var2 : Nat)
    (givens : List (Nat × Nat)) (g : Graph) (w1 w2 : Nat)
    (h : mergePipeline env var1 var2 givens = some (g, w1, w2)) :
    (is_same_graph_with_merge env var1 var2 givens).1 =
      some
        (if ownerIn g.applies w1 = none ∧ ownerIn g.applies w2 = none then
           decide (w1 = w2)
         else
           decide (ownerRef (ownerIn g.applies w1) =
             ownerRef (ownerIn g.applies w2))) := by
  unfold is_same_graph_with_merge
  rw [h]
  rcases h1 : ownerIn g.applies w1 with _ | a <;>
    rcases h2 : ownerIn g.applies w2 with _ | c <;>
      simp [decideSame, h1, h2, ownerRef]

/-- Witness for C4 on the single-node heap, comparing the derived output
Value `1` with itself under the empty mapping. -/
theorem merge_checker_decision_witness :
    (is_same_graph_with_merge singleNodeEnv 1 1 []).1 =
      some
        (if ownerIn (Graph.mk [⟨2, 3, [2], [3]⟩] [2] [3, 3]).applies 3 = none ∧
             ownerIn (Graph.mk [⟨2, 3, [2], [3]⟩] [2] [3, 3]).applies 3 = none then
           decide ((3 : Nat) = 3)
         else
           decide
             (ownerRef (ownerIn (Graph.mk [⟨2, 3, [2], [3]⟩] [2] [3, 3]).applies 3) =
               ownerRef (ownerIn (Graph.mk [⟨2, 3, [2], [3]⟩] [2] [3, 3]).applies 3))) :=
  merge_checker_decision singleNodeEnv 1 1 []
    (Graph.mk [⟨2, 3, [2], [3]⟩] [2] [3, 3]) 3 3 (by decide)

/-- Merging only rewires designated outputs pointwise: the final output list
is the initial one mapped through some Value substitution. -/
theorem mergeAll_outputs_map (fuel : Nat) :
    ∀ g : Graph, ∃ f : Nat → Nat, (mergeAll fuel g).outputs = g.outputs.map f := by
  induction fuel with
  | zero => exact fun g => ⟨id, (List.map_id g.outputs).symm⟩
  | succ n ih =>
    intro g
    unfold mergeAll
    cases hf : findMergePair g.applies with
    | none => exact ⟨id, (List.map_id g.outputs).symm⟩
    | some p =>
      obtain ⟨a, b⟩ := p
      obtain ⟨f, hf2⟩ := ih (applyMerge g a b)
      refine ⟨fun v =>
        f (match (b.outputs.zip a.outputs).lookup v with
           | some w => w
           | none => v), ?_⟩
      rw [hf2]
      simp [applyMerge]

/-- The comparison of a Value with itself always succeeds. -/
theorem decideSame_self (g : Graph) (w : Nat) : decideSame g w w = true := by
  unfold decideSame
  cases h : ownerIn g.applies w with
  | none => simp
  | some a => simp

/-- The structural comparator accepts a Value against itself. -/
theorem eqCompVar_self (env : Env) (inXs inYs : List Nat) (fuel : Nat)
    (x : Nat) : eqCompVar env inXs inYs (fuel + 1) x x = true := by
  unfold eqCompVar
  simp

/-- Claim C2: for every Value `v`, `is_same_graph (v, v)` with an empty
substitution mapping returns `True` — the merge-based result is `True` (the
two remapped outputs coincide), the structural comparator agrees, and the
assertion passes. -/
theorem is_same_graph_reflexive (env : Env) (v : Nat) :
    (is_same_graph env v v []).1 = some true := by
  have hmerge : (is_same_graph_with_merge env v v []).1 = some true := by
    obtain ⟨f, hf⟩ :=
      mergeAll_outputs_map
        (mkFGraph (env.map (renApply (freshBase env v v [])))
            [v + freshBase env v v [], v + freshBase env v v []]).applies.length
        (mkFGraph (env.map (renApply (freshBase env v v [])))
          [v + freshBase env v v [], v + freshBase env v v []])
    unfold is_same_graph_with_merge mergePipeline mergeOptimize
    simp only [List.map_nil, List.foldl_nil, Option.map_some']
    rw [hf]
    simp [mkFGraph, decideSame_self]
  have hec : equal_computations env [v] [v] none none = true := by
    unfold equal_computations
    simp [eqCompVar_self]
  simp [is_same_graph, is_same_graph_gen, structuralArgs, hmerge, hec]

theorem chainEnv_succ (n : Nat) :
    chainEnv (n + 1) = chainEnv n ++ [chainApply n] := by
  simp [chainEnv, List.range_succ]

theorem singleton_enum (x : Nat) : ([x] : List Nat).enum = [(0, x)] := rfl

/-- In the chain heap, Value `p + 1` is owned by node `p` when present. -/
theorem chain_ownerIn (n p : Nat) :
    ownerIn (chainEnv n) (p + 1) =
      if p < n then some (chainApply p) else none := by
  induction n with
  | zero => simp [chainEnv, ownerIn]
  | succ m ih =>
    rw [chainEnv_succ]
    unfold ownerIn at ih ⊢
    rw [List.find?_append, ih]
    by_cases h1 : p < m
    · simp [h1, Nat.lt_succ_of_lt h1]
    · by_cases h2 : p = m
      · subst h2
        simp [h1, chainApply]
      · have h3 : ¬p < m + 1 := by omega
        have h4 : ¬(m + 1 = p + 1) := by omega
        simp [h1, h2, h3, chainApply, h4]

/-- The consuming-node part of the chain's client index: Value `v` is consumed
exactly by node `v` when it exists. -/
theorem chain_clients_applies (n v : Nat) :
    ((chainEnv n).map (fun a =>
        ((a.inputs.enum.filter (fun q => q.2 = v)).map
          (fun q => (Client.app a, q.1))))).flatten =
      if v < n then [(Client.app (chainApply v), 0)] else [] := by
  induction n with
  | zero => simp [chainEnv]
  | succ m ih =>
    rw [chainEnv_succ]
    rw [List.map_append, List.flatten_append, ih]
    by_cases h1 : v < m
    · have h2 : ¬(m = v) := by omega
      simp [h1, Nat.lt_succ_of_lt h1, chainApply, singleton_enum, h2]
    · by_cases h2 : v = m
      · subst h2
        simp [h1, chainApply, singleton_enum]
      · have h3 : ¬v < m + 1 := by omega
        have h4 : ¬(m = v) := by omega
        simp [h1, h3, chainApply, singleton_enum, h4]

/-- The chain graph's client index at Value `p + 1`: the single downstream
consumer while the chain continues, the graph-output sentinel at its end. -/
theorem chain_clientsOf (n p : Nat) :
    clientsOf (chainGraph n) (p + 1) =
      (if p + 1 < n then [(Client.app (chainApply (p + 1)), 0)] else []) ++
        (if p + 1 = n then [(Client.output, 0)] else []) := by
  unfold clientsOf
  show ((chainEnv n).map _).flatten ++ _ = _
  rw [chain_clients_applies]
  by_cases h : p + 1 = n
  · subst h
    simp [chainGraph, singleton_enum]
  · have h5 : ¬(n = p + 1) := fun h2 => h h2.symm
    simp [chainGraph, singleton_enum, h, h5]

/-- Exact-depth traversal along the chain: starting at node `p`, depth `d`
reaches node `p + d` alone while it exists, and nothing at all once the
remaining chain is shorter than `d`. -/
theorem gcadNat_chain (d : Nat) :
    ∀ n p : Nat, p < n →
      gcadNat (chainGraph n) d (chainApply p) =
        if p + d < n then [some (chainApply (p + d))] else [] := by
  induction d with
  | zero =>
    intro n p hp
    unfold gcadNat
    show [ownerIn (chainGraph n).applies (p + 1)] = _
    have : (chainGraph n).applies = chainEnv n := rfl
    rw [this, chain_ownerIn]
    simp [hp]
  | succ d ih =>
    intro n p hp
    unfold gcadNat
    show ((clientsOf (chainGraph n) (p + 1)).map (fun c =>
        match c.1 with
        | Client.app a => gcadNat (chainGraph n) d a
        | Client.output => [])).flatten ++ [] = _
    rw [chain_clientsOf]
    by_cases h1 : p + 1 < n
    · have h2 : ¬(p + 1 = n) := by omega
      have h3 : p + 1 + d = p + (d + 1) := by omega
      simp [h1, h2, ih n (p + 1) h1, h3]
    · have h2 : p + 1 = n := by omega
      have h3 : ¬(p + (d + 1) < n) := by omega
      simp [h1, h2, h3]

/-- Claim C7: on a linear chain of `n` single-input/single-output nodes,
`get_clients_at_depth` from node `p` at a non-negative depth `d` yields
exactly one node — the one exactly `d` steps downstream — as long as the
remaining chain is long enough (`p + d < n`); at any greater depth the
designated-graph-output sentinel is skipped and the yielded sequence is
empty, with no error raised. -/
theorem chain_traversal_exact (n p : Nat) (d : Int) (hp : p < n)
    (_hd : 0 ≤ d) :
    get_clients_at_depth (chainGraph n) (chainApply p) d =
      if p + d.toNat < n then [some (chainApply (p + d.toNat))] else [] := by
  unfold get_clients_at_depth
  exact gcadNat_chain d.toNat n p hp

/-- Witness for C7: the three-node chain from node `0` at depth `2` yields
node `2`, and (second application is covered by the `if`) the bound is
checked concretely. -/
theorem chain_traversal_exact_witness :
    get_clients_at_depth (chainGraph 3) (chainApply 0) 2 =
      if 0 + (2 : Int).toNat < 3 then [some (chainApply (0 + (2 : Int).toNat))]
      else [] :=
  chain_traversal_exact 3 0 2 (by decide) (by decide)

/-- Every index mentioned by every node of the list is at least `b` — the
signature of freshly deep-copied objects. -/
def idsGE (b : Nat) (l : List Apply) : Prop :=
  ∀ a ∈ l, b ≤ a.aid ∧ (∀ i ∈ a.inputs, b ≤ i) ∧ ∀ o ∈ a.outputs, b ≤ o

theorem idsGE_subset {b : Nat} {l1 l2 : List Apply}
    (hsub : ∀ a ∈ l2, a ∈ l1) (h : idsGE b l1) : idsGE b l2 :=
  fun a ha => h a (hsub a ha)

/-- The deep copy allocates only fresh indices. -/
theorem idsGE_renamed (b : Nat) (env : Env) :
    idsGE b (env.map (renApply b)) := by
  intro a ha
  obtain ⟨a0, _, rfl⟩ := List.mem_map.mp ha
  refine ⟨Nat.le_add_left b a0.aid, ?_, ?_⟩
  · intro i hi
    obtain ⟨i0, _, rfl⟩ := List.mem_map.mp hi
    exact Nat.le_add_left b i0
  · intro o ho
    obtain ⟨o0, _, rfl⟩ := List.mem_map.mp ho
    exact Nat.le_add_left b o0

/-- Backward reachability only visits nodes of the store. -/
theorem reachApplies_subset (store : Env) :
    ∀ (fuel v : Nat) (a : Apply), a ∈ reachApplies store fuel v → a ∈ store := by
  intro fuel
  induction fuel with
  | zero => intro v a ha; simp [reachApplies] at ha
  | succ n ih =>
    intro v a ha
    unfold reachApplies at ha
    cases ho : ownerIn store v with
    | none => rw [ho] at ha; simp at ha
    | some a0 =>
      rw [ho] at ha
      rcases List.mem_cons.mp ha with h | h
      · subst h
        exact List.mem_of_find?_eq_some ho
      · obtain ⟨l, hl, hal⟩ := List.mem_flatten.mp h
        obtain ⟨i, _, rfl⟩ := List.mem_map.mp hl
        exact ih i a hal

/-- The ephemeral graph is built only from store nodes. -/
theorem mkFGraph_applies_subset (store : Env) (outs : List Nat) :
    ∀ a ∈ (mkFGraph store outs).applies, a ∈ store := by
  intro a ha
  unfold mkFGraph at ha
  obtain ⟨l, hl, hal⟩ := List.mem_flatten.mp (List.mem_dedup.mp ha)
  obtain ⟨v, _, rfl⟩ := List.mem_map.mp hl
  exact reachApplies_subset store _ v a hal

/-- A value produced by the pairwise-rewiring substitution is either the
original or one of the replacement outputs. -/
theorem lookup_zip_mem : ∀ (l1 l2 : List Nat) (v w : Nat),
    (l1.zip l2).lookup v = some w → w ∈ l2 := by
  intro l1
  induction l1 with
  | nil => intro l2 v w h; simp [List.lookup] at h
  | cons x xs ih =>
    intro l2 v w h
    cases l2 with
    | nil => simp [List.lookup] at h
    | cons y ys =>
      rw [List.zip_cons_cons] at h
      unfold List.lookup at h
      by_cases hv : v == x
      · rw [hv] at h
        simp at h
        exact h ▸ List.mem_cons_self y ys
      · rw [Bool.not_eq_true] at hv
        rw [hv] at h
        exact List.mem_cons_of_mem y (ih ys v w h)

/-- `replace` preserves freshness: rewiring to a fresh Value and importing
fresh store nodes keeps every index at or above the base. -/
theorem idsGE_replaceG {store : Env} {g g2 : Graph} {old new b : Nat}
    (hrep : replaceG store g old new = some g2) (hg : idsGE b g.applies)
    (hstore : idsGE b store) (hnew : b ≤ new) : idsGE b g2.applies := by
  unfold replaceG at hrep
  by_cases hc : (gVars g).contains old
  · rw [if_pos hc] at hrep
    obtain rfl := Option.some_inj.mp hrep
    intro a ha
    rcases List.mem_append.mp ha with h | h
    · obtain ⟨a0, ha0, rfl⟩ := List.mem_map.mp h
      obtain ⟨haid, hin, hout⟩ := hg a0 ha0
      refine ⟨haid, ?_, hout⟩
      intro i hi
      obtain ⟨i0, hi0, rfl⟩ := List.mem_map.mp hi
      by_cases h0 : i0 = old
      · simp only [h0, if_pos rfl]
        exact hnew
      · simp only [if_neg h0]
        exact hin i0 hi0
    · exact hstore a
        (reachApplies_subset store _ new a
          (List.mem_dedup.mp (List.mem_filter.mp h).1))
  · rw [if_neg hc] at hrep
    exact absurd hrep (by simp)

theorem findMergePair_mem_left :
    ∀ (l : List Apply) (a b : Apply), findMergePair l = some (a, b) → a ∈ l := by
  intro l
  induction l with
  | nil => intro a b h; simp [findMergePair] at h
  | cons x xs ih =>
    intro a b h
    unfold findMergePair at h
    cases hf : xs.find? (fun c => c.op = x.op && c.inputs = x.inputs && c.aid ≠ x.aid) with
    | some c =>
      rw [hf] at h
      have h2 : (x, c) = (a, b) := Option.some_inj.mp h
      injection h2 with h3 h4
      exact h3 ▸ List.mem_cons_self x xs
    | none =>
      rw [hf] at h
      exact List.mem_cons_of_mem x (ih a b h)

/-- A merge step introduces no index that was not already in the graph. -/
theorem idsGE_applyMerge {g : Graph} {a c : Apply} {b : Nat}
    (hmem : a ∈ g.applies) (hg : idsGE b g.applies) :
    idsGE b (applyMerge g a c).applies := by
  intro a2 ha2
  unfold applyMerge at ha2
  obtain ⟨a0, ha0, rfl⟩ := List.mem_map.mp ha2
  have ha0m : a0 ∈ g.applies := (List.mem_filter.mp ha0).1
  obtain ⟨haid, hin, hout⟩ := hg a0 ha0m
  refine ⟨haid, ?_, hout⟩
  intro i hi
  obtain ⟨i0, hi0, rfl⟩ := List.mem_map.mp hi
  cases hl : (c.outputs.zip a.outputs).lookup i0 with
  | none => simp only [hl]; exact hin i0 hi0
  | some w =>
    simp only [hl]
    exact (hg a hmem).2.2 w (lookup_zip_mem c.outputs a.outputs i0 w hl)

theorem idsGE_mergeAll {b : Nat} :
    ∀ (fuel : Nat) (g : Graph), idsGE b g.applies →
      idsGE b (mergeAll fuel g).applies := by
  intro fuel
  induction fuel with
  | zero => intro g hg; exact hg
  | succ n ih =>
    intro g hg
    unfold mergeAll
    cases hf : findMergePair g.applies with
    | none => exact hg
    | some p =>
      obtain ⟨a, c⟩ := p
      exact ih (applyMerge g a c)
        (idsGE_applyMerge (findMergePair_mem_left g.applies a c hf) hg)

/-- A substitution fold that has already failed stays failed. -/
theorem foldl_bind_none (store : Env) (ps : List (Nat × Nat)) :
    ps.foldl (fun og p => og.bind (fun g => replaceG store g p.1 p.2)) none =
      none := by
  induction ps with
  | nil => rfl
  | cons q qs ih =>
    rw [List.foldl_cons, Option.none_bind]
    exact ih

/-- The substitution fold keeps every index at or above the base, or fails. -/
theorem idsGE_replace_fold {store : Env} {b : Nat} (hstore : idsGE b store) :
    ∀ (ps : List (Nat × Nat)) (g0 g : Graph), (∀ p ∈ ps, b ≤ p.2) →
      idsGE b g0.applies →
      ps.foldl (fun og p => og.bind (fun g => replaceG store g p.1 p.2))
          (some g0) = some g →
      idsGE b g.applies := by
  intro ps
  induction ps with
  | nil =>
    intro g0 g _ hg0 hfold
    rw [List.foldl_nil] at hfold
    exact Option.some_inj.mp hfold ▸ hg0
  | cons p ps ih =>
    intro g0 g hps hg0 hfold
    rw [List.foldl_cons, Option.some_bind] at hfold
    cases hrep : replaceG store g0 p.1 p.2 with
    | none =>
      rw [hrep, foldl_bind_none store ps] at hfold
      exact absurd hfold (by simp)
    | some g1 =>
      rw [hrep] at hfold
      exact ih g1 g (fun q hq => hps q (List.mem_cons_of_mem p hq))
        (idsGE_replaceG hrep hg0 hstore (hps p (List.mem_cons_self p ps)))
        hfold

/-- Everything the merge-based checker's pipeline can touch lives at or above
the fresh base: its final graph holds no caller index. -/
theorem idsGE_mergePipeline {env : Env} {var1 var2 : Nat}
    {givens : List (Nat × Nat)} {g : Graph} {w1 w2 : Nat}
    (h : mergePipeline env var1 var2 givens = some (g, w1, w2)) :
    idsGE (freshBase env var1 var2 givens) g.applies := by
  simp only [mergePipeline] at h
  obtain ⟨g1, hfold, hf⟩ := Option.map_eq_some'.mp h
  have hga : g = mergeOptimize g1 := by
    have h2 := congrArg Prod.fst hf
    exact h2.symm
  have hstore : idsGE (freshBase env var1 var2 givens)
      (env.map (renApply (freshBase env var1 var2 givens))) :=
    idsGE_renamed _ env
  have hg0 : idsGE (freshBase env var1 var2 givens)
      (mkFGraph (env.map (renApply (freshBase env var1 var2 givens)))
        [var1 + freshBase env var1 var2 givens,
          var2 + freshBase env var1 var2 givens]).applies :=
    idsGE_subset (mkFGraph_applies_subset _ _) hstore
  have hpairs : ∀ p ∈ givens.map
      (fun p => (p.1 + freshBase env var1 var2 givens,
        p.2 + freshBase env var1 var2 givens)),
      freshBase env var1 var2 givens ≤ p.2 := by
    intro p hp
    obtain ⟨q, -, rfl⟩ := List.mem_map.mp hp
    exact Nat.le_add_left _ _
  have hg1 : idsGE (freshBase env var1 var2 givens) g1.applies :=
    idsGE_replace_fold hstore _ _ g1 hpairs hg0 hfold
  rw [hga]
  unfold mergeOptimize
  exact idsGE_mergeAll _ g1 hg1

/-- The second component of an enumerated pair is an element of the list. -/
theorem enum_snd_mem (l : List Nat) (q : Nat × Nat) (h : q ∈ l.enum) :
    q.2 ∈ l := by
  obtain ⟨i, x⟩ := q
  obtain ⟨-, h2, h3⟩ := List.mem_enumFrom h
  simp only []
  rw [h3]
  exact List.getElem_mem _

/-- Appending only fresh nodes to the heap leaves the owner of every old
Value unchanged. -/
theorem ownerIn_append_low {b : Nat} {extra : List Apply}
    (hex : idsGE b extra) (env : Env) (v : Nat) (hv : v < b) :
    ownerIn (env ++ extra) v = ownerIn env v := by
  unfold ownerIn
  rw [List.find?_append]
  have hnone : extra.find? (fun a => a.outputs.contains v) = none := by
    rw [List.find?_eq_none]
    intro a ha hcon
    have hm : v ∈ a.outputs := List.elem_iff.mp hcon
    exact absurd ((hex a ha).2.2 v hm) (by omega)
  rw [hnone, Option.or_none]

/-- Appending only fresh nodes to the heap leaves the client edges of every
old Value unchanged. -/
theorem clientsIn_append_low {b : Nat} {extra : List Apply}
    (hex : idsGE b extra) (env : Env) (v : Nat) (hv : v < b) :
    clientsIn (env ++ extra) v = clientsIn env v := by
  unfold clientsIn
  rw [List.map_append, List.flatten_append]
  have hnil : (extra.map (fun a =>
      ((a.inputs.enum.filter (fun p => p.2 = v)).map
        (fun p => (a.aid, p.1))))).flatten = [] := by
    rw [List.flatten_eq_nil_iff]
    intro l hl
    obtain ⟨a, ha, rfl⟩ := List.mem_map.mp hl
    rw [List.map_eq_nil_iff, List.filter_eq_nil_iff]
    intro q hq hqv
    have hm : q.2 ∈ a.inputs := enum_snd_mem a.inputs q hq
    have hge := (hex a ha).2.1 q.2 hm
    have : q.2 = v := by simpa using hqv
    omega
  rw [hnil, List.append_nil]

/-- The heap coming out of `is_same_graph` is the heap of the merge-based
checker's call: the cross-validation step reads but never allocates. -/
theorem is_same_graph_gen_heap (ec : Comparator) (env : Env) (var1 var2 : Nat)
    (givens : List (Nat × Nat)) :
    (is_same_graph_gen ec env var1 var2 givens).2 =
      (is_same_graph_with_merge env var1 var2 givens).2 := by
  unfold is_same_graph_gen
  rcases h : (is_same_graph_with_merge env var1 var2 givens).1 with _ | rval1
  · simp [h]
  · rcases h2 : structuralArgs env var1 var2 givens with _ | ⟨xs, ys⟩
    · simp [h, h2]
    · simp only [h, h2]
      split <;> rfl

/-- Claim C3: after any `is_same_graph` call, regardless of its result, the
caller's original Values, their owning nodes and their client edges are
unchanged — the heap after the call extends the caller's heap with only the
private deep copies (every index below the fresh base keeps its owner and its
client-edge list). -/
theorem is_same_graph_non_mutation (env : Env) (var1 var2 : Nat)
    (givens : List (Nat × Nat)) (v : Nat)
    (hv : v < freshBase env var1 var2 givens) :
    ownerIn (is_same_graph env var1 var2 givens).2 v = ownerIn env v ∧
      clientsIn (is_same_graph env var1 var2 givens).2 v = clientsIn env v ∧
      ∃ extra, (is_same_graph env var1 var2 givens).2 = env ++ extra := by
  have hheap : (is_same_graph env var1 var2 givens).2 =
      (is_same_graph_with_merge env var1 var2 givens).2 :=
    is_same_graph_gen_heap equal_computations env var1 var2 givens
  rw [hheap]
  cases hp : mergePipeline env var1 var2 givens with
  | none =>
    have henv : (is_same_graph_with_merge env var1 var2 givens).2 = env := by
      unfold is_same_graph_with_merge
      rw [hp]
    rw [henv]
    exact ⟨rfl, rfl, [], by simp⟩
  | some t =>
    obtain ⟨g, w1, w2⟩ := t
    have henv : (is_same_graph_with_merge env var1 var2 givens).2 =
        env ++ g.applies := by
      unfold is_same_graph_with_merge
      rw [hp]
    rw [henv]
    have hex := idsGE_mergePipeline hp
    exact ⟨ownerIn_append_low hex env v hv, clientsIn_append_low hex env v hv,
      g.applies, rfl⟩

/-- Witness for C3: the `x + 1`/`y + 1` heap with the `{x : y}` mapping; the
owner and clients of the original output Value `3` survive the call. -/
theorem is_same_graph_non_mutation_witness :
    ownerIn (is_same_graph addOneEnv 3 4 [(0, 1)]).2 3 = ownerIn addOneEnv 3 ∧
      clientsIn (is_same_graph addOneEnv 3 4 [(0, 1)]).2 3 =
        clientsIn addOneEnv 3 ∧
      ∃ extra, (is_same_graph addOneEnv 3 4 [(0, 1)]).2 = addOneEnv ++ extra :=
  is_same_graph_non_mutation addOneEnv 3 4 [(0, 1)] 3 (by decide)

end Aesara
